import Mathlib

/-!
Shallow embedding of the structural document segmentation, formula-pattern
extraction, token-budget chunking and topic merging implemented in
`app/services/content_analyzer.py` of the notes-taking pipeline.

Text is modelled as `List Char` (the pipeline's inputs are ASCII text plus a
handful of fixed mathematical symbols; Python's `str` is treated as a char
sequence).  Regex matching is embedded by a small backtracking matcher over
per-pattern atom lists that mirrors the greedy/lazy semantics of the concrete
patterns appearing in the source.  All definitions are executable so that
concrete inputs evaluate inside the kernel.
-/

namespace NotesAgent

/-- Newline character. -/
def nlC : Char := Char.ofNat 10

/-- ASCII whitespace, as matched by Python's `str.strip`, `str.split()` and
the regex class `\s` on the pipeline's ASCII inputs: space, tab, newline,
vertical tab, form feed, carriage return. -/
def isSpaceChar (c : Char) : Bool :=
  let n := c.toNat
  n == 32 || n == 9 || n == 10 || n == 11 || n == 12 || n == 13

/-- The regex class `\d` / `0`-`9`. -/
def isDigitChar (c : Char) : Bool :=
  decide (48 ≤ c.toNat) && decide (c.toNat ≤ 57)

/-- ASCII upper-case letter. -/
def isUpperChar (c : Char) : Bool :=
  decide (65 ≤ c.toNat) && decide (c.toNat ≤ 90)

/-- ASCII lower-case letter. -/
def isLowerChar (c : Char) : Bool :=
  decide (97 ≤ c.toNat) && decide (c.toNat ≤ 122)

/-- The regex class `[A-Za-z]`. -/
def isAlphaChar (c : Char) : Bool := isUpperChar c || isLowerChar c

/-- Python `str.lower` on the ASCII range. -/
def toLowerChar (c : Char) : Char :=
  if isUpperChar c then Char.ofNat (c.toNat + 32) else c

/-- The regex class `\w` = `[A-Za-z0-9_]`. -/
def isWordChar (c : Char) : Bool := isAlphaChar c || isDigitChar c || c == '_'

/-- The regex class `[A-Za-z_]`. -/
def isLetterU (c : Char) : Bool := isAlphaChar c || c == '_'

/-- Python `str.strip()`: drop leading and trailing whitespace. -/
def stripWS (s : List Char) : List Char :=
  ((s.dropWhile isSpaceChar).reverse.dropWhile isSpaceChar).reverse

/-- Python `str.isdigit()` on ASCII: non-empty and all digits. -/
def isDigitsStr (s : List Char) : Bool := !s.isEmpty && s.all isDigitChar

/-- Worker for `splitOn`.  `fuel` bounds the recursion; every step consumes at
least one character, so `fuel = s.length` always suffices. -/
def splitOnFuel (sep : List Char) : Nat → List Char → List Char → List (List Char)
  | _, [], acc => [acc.reverse]
  | 0, s, acc => [acc.reverse ++ s]
  | fuel+1, c :: cs, acc =>
    if sep.isPrefixOf (c :: cs) then
      acc.reverse :: splitOnFuel sep fuel (List.drop sep.length (c :: cs)) []
    else
      splitOnFuel sep fuel cs (c :: acc)

/-- Python `str.split(sep)` for a non-empty separator: leftmost,
non-overlapping, keeps empty pieces. -/
def splitOn (sep s : List Char) : List (List Char) := splitOnFuel sep s.length s []

/-- Maximal runs of characters satisfying `p` (used for `\b`-delimited word
extraction and for whitespace splitting). -/
def runsAux (p : Char → Bool) : List Char → List Char → List (List Char)
  | [], acc => if acc.isEmpty then [] else [acc.reverse]
  | c :: cs, acc =>
    if p c then runsAux p cs (c :: acc)
    else if acc.isEmpty then runsAux p cs [] else acc.reverse :: runsAux p cs []

/-- Maximal runs of characters satisfying `p` in `s`, in order. -/
def runsOf (p : Char → Bool) (s : List Char) : List (List Char) := runsAux p s []

/-- Python `str.split()` (no argument): whitespace-delimited tokens, no
empty pieces. -/
def splitWS (s : List Char) : List (List Char) := runsOf (fun c => !isSpaceChar c) s

/-- Keep the first occurrence of every element (a deterministic model of
Python's `list(set(...))`, whose order is unspecified). -/
def firstSeenAux (seen : List (List Char)) : List (List Char) → List (List Char)
  | [] => []
  | w :: ws =>
    if w ∈ seen then firstSeenAux seen ws else w :: firstSeenAux (w :: seen) ws

/-! ## Chunker: `_split_text_into_chunks` -/

/-- Token estimate used throughout the source: one token per four characters
(`len(text) // 4`). -/
def estTokens (s : List Char) : Nat := s.length / 4

/-- The paragraph separator `"\n\n"`. -/
def paragraphSep : List Char := [nlC, nlC]

/-- The sentence separator `". "`. -/
def sentenceSep : List Char := ['.', ' ']

/-- Python `text.split('\n\n')`. -/
def paragraphsOf (text : List Char) : List (List Char) := splitOn paragraphSep text

/-- Python `paragraph.split('. ')`. -/
def sentencesOf (p : List Char) : List (List Char) := splitOn sentenceSep p

/-- One iteration of the sentence loop of `_split_text_into_chunks`: state
is `(chunks, current_chunk)`; the Python test is
`len(current_chunk + sentence) // 4 > max_tokens`, while a join appends the
two-character separator `". "`. -/
def sentStep (maxTokens : Nat) (st : List (List Char) × List Char)
    (sentence : List Char) : List (List Char) × List Char :=
  if maxTokens < (st.2.length + sentence.length) / 4 then
    if st.2 = [] then (st.1 ++ [sentence], st.2)
    else (st.1 ++ [st.2], sentence)
  else
    (st.1, if st.2 = [] then sentence else st.2 ++ '.' :: ' ' :: sentence)

/-- One iteration of the paragraph loop of `_split_text_into_chunks` (the
Python local `test_chunk` is inlined). -/
def paraStep (maxTokens : Nat) (st : List (List Char) × List Char)
    (para : List Char) : List (List Char) × List Char :=
  if maxTokens < (if st.2 = [] then para else st.2 ++ paragraphSep ++ para).length / 4 then
    if st.2 = [] then (sentencesOf para).foldl (sentStep maxTokens) st
    else (st.1 ++ [st.2], para)
  else
    (st.1, if st.2 = [] then para else st.2 ++ paragraphSep ++ para)

/-- The final flush: append a non-empty `current_chunk`. -/
def assembleChunks (st : List (List Char) × List Char) : List (List Char) :=
  if st.2 = [] then st.1 else st.1 ++ [st.2]

/-- Embeds `_split_text_into_chunks(text, max_tokens)`. -/
def splitTextIntoChunks (text : List Char) (maxTokens : Nat) : List (List Char) :=
  if text.length / 4 ≤ maxTokens then [text]
  else assembleChunks ((paragraphsOf text).foldl (paraStep maxTokens) ([], []))

/-! ## A small backtracking matcher for the concrete regex patterns

Every regex appearing in the analyzer is a sequence of simple atoms:
literals (case-insensitive under `re.IGNORECASE`), and character classes
with a repetition range, greedy or lazy.  `matchK` matches an atom list
against a prefix of `s` in exactly Python's backtracking order (greedy
classes try the longest repetition first, lazy ones the shortest) and hands
the remaining suffix to a continuation; a `none` from the continuation
triggers backtracking, so nested `matchK` calls explore the joint
backtracking space of a whole pattern. -/

/-- One regex atom. `cls p mn mx greedy` is the class `{c // p c}` repeated
between `mn` and `mx` times (`none` = unbounded). -/
inductive Atom where
  | lit : List Char → Atom
  | litci : List Char → Atom
  | cls : (Char → Bool) → Nat → Option Nat → Bool → Atom

/-- Case-insensitive prefix test (ASCII, as `re.IGNORECASE`). -/
def isPrefixCI : List Char → List Char → Bool
  | [], _ => true
  | _, [] => false
  | a :: as, b :: bs => (toLowerChar a == toLowerChar b) && isPrefixCI as bs

/-- Length of the maximal run of characters satisfying `p`. -/
def runLen (p : Char → Bool) : List Char → Nat
  | [] => 0
  | c :: cs => if p c then runLen p cs + 1 else 0

/-- Repetition counts to try, in backtracking order. -/
def countRange (mn top : Nat) (greedy : Bool) : List Nat :=
  if top < mn then []
  else
    let ks := List.range' mn (top + 1 - mn)
    if greedy then ks.reverse else ks

/-- Match the atom list against a prefix of `s`; on success pass the
unconsumed suffix to `k`.  `fuel` bounds recursion depth; one unit is spent
per atom, so `atoms.length + 1` always suffices. -/
def matchK : Nat → List Atom → List Char → (List Char → Option α) → Option α
  | 0, _, _, _ => none
  | _+1, [], s, k => k s
  | fuel+1, Atom.lit l :: rest, s, k =>
    if l.isPrefixOf s then matchK fuel rest (s.drop l.length) k else none
  | fuel+1, Atom.litci l :: rest, s, k =>
    if isPrefixCI l s then matchK fuel rest (s.drop l.length) k else none
  | fuel+1, Atom.cls p mn mx greedy :: rest, s, k =>
    let run := runLen p s
    let top := match mx with | none => run | some m => min run m
    (countRange mn top greedy).foldl
      (fun acc c =>
        match acc with
        | some r => some r
        | none => matchK fuel rest (s.drop c) k) none

/-- Match with adequate fuel. -/
def matchA (atoms : List Atom) (s : List Char) (k : List Char → Option α) : Option α :=
  matchK (atoms.length + 1) atoms s k

/-! ## Heading segmentation: `_identify_structural_topics` -/

inductive TopicType where
  | chapter
  | sect
  | subsection
  | concept
deriving DecidableEq, Repr

/-- The `Topic` record of `app/models/schemas.py` (fields used by the
analyzer; `type` is `ttype` as `type` is reserved). -/
structure Topic where
  id : List Char
  title : List Char
  ttype : TopicType
  level : Nat
  parent_id : Option (List Char)
  content : List Char
  page_range : Nat × Nat
  keywords : List (List Char)
deriving DecidableEq, Repr

def chapterLit : List Char := (r"chapter").data

def sectionLit : List Char := (r"section").data

/-- Literal `'--- Page '` (with trailing space), the sentinel test of the main loop. -/
def pageMarkerLit : List Char := (r"--- Page ").data

/-- Literal `'--- Page'` (no trailing space), the sentinel test inside
`_extract_topic_content`. -/
def contentPageLit : List Char := (r"--- Page").data

def pageTailLit : List Char := (r" ---").data

/-- Colon or dot: the class `[:\.]`. -/
def isColonDot (c : Char) : Bool := c == ':' || c == '.'

/-- Any character except newline: the class `.` without `re.DOTALL`. -/
def isNotNL (c : Char) : Bool := !(c == nlC)

/-- Embeds `re.match(r'^Chapter\s+(\d+)[:\.]?\s*(.+)$', line, re.IGNORECASE)`,
returning the second capture group (the title used for chapters). -/
def matchChapter (s : List Char) : Option (List Char) :=
  matchA [Atom.litci chapterLit, Atom.cls isSpaceChar 1 none true] s (fun s1 =>
  matchA [Atom.cls isDigitChar 1 none true] s1 (fun s2 =>
  matchA [Atom.cls isColonDot 0 (some 1) true, Atom.cls isSpaceChar 0 none true] s2 (fun s3 =>
  matchA [Atom.cls isNotNL 1 none true] s3 (fun s4 =>
  if s4 = [] then some s3 else none))))

/-- Embeds `re.match(r'^Section\s+(\d+)[:\.]?\s*(.+)$', line, re.IGNORECASE)`,
returning the last capture group. -/
def matchSection (s : List Char) : Option (List Char) :=
  matchA [Atom.litci sectionLit, Atom.cls isSpaceChar 1 none true] s (fun s1 =>
  matchA [Atom.cls isDigitChar 1 none true] s1 (fun s2 =>
  matchA [Atom.cls isColonDot 0 (some 1) true, Atom.cls isSpaceChar 0 none true] s2 (fun s3 =>
  matchA [Atom.cls isNotNL 1 none true] s3 (fun s4 =>
  if s4 = [] then some s3 else none))))

/-- Embeds `re.match(r'^(\d+)\.\s+(.+)$', line, re.IGNORECASE)`, returning the last
capture group. -/
def matchNumDot (s : List Char) : Option (List Char) :=
  matchA [Atom.cls isDigitChar 1 none true, Atom.lit ['.'],
          Atom.cls isSpaceChar 1 none true] s (fun s1 =>
  matchA [Atom.cls isNotNL 1 none true] s1 (fun s2 =>
  if s2 = [] then some s1 else none))

/-- Embeds `re.match(r'^(\d+)\.(\d+)\s+(.+)$', line, re.IGNORECASE)`, returning the
third capture group. -/
def matchNumNum (s : List Char) : Option (List Char) :=
  matchA [Atom.cls isDigitChar 1 none true, Atom.lit ['.'],
          Atom.cls isDigitChar 1 none true, Atom.cls isSpaceChar 1 none true] s (fun s1 =>
  matchA [Atom.cls isNotNL 1 none true] s1 (fun s2 =>
  if s2 = [] then some s1 else none))

/-- Embeds `re.match(r'^#{1,3}\s+(.+)$', line, re.IGNORECASE)`, returning the only
capture group. -/
def matchHash (s : List Char) : Option (List Char) :=
  matchA [Atom.cls (fun c => c == '#') 1 (some 3) true,
          Atom.cls isSpaceChar 1 none true] s (fun s1 =>
  matchA [Atom.cls isNotNL 1 none true] s1 (fun s2 =>
  if s2 = [] then some s1 else none))

/-- The ordered heading-pattern table of `_identify_structural_topics`:
first matching rule wins; the result is the extracted raw title together
with the rule's hierarchy level and topic type.  The per-rule title-group
selection (`groups[1]` for chapters, last group otherwise, third group for
numbered subsections) is baked into the individual matchers. -/
def headingFirstMatch (line : List Char) : Option (List Char × Nat × TopicType) :=
  match matchChapter line with
  | some t => some (t, 1, TopicType.chapter)
  | none =>
    match matchSection line with
    | some t => some (t, 2, TopicType.sect)
    | none =>
      match matchNumDot line with
      | some t => some (t, 2, TopicType.sect)
      | none =>
        match matchNumNum line with
        | some t => some (t, 3, TopicType.subsection)
        | none =>
          match matchHash line with
          | some t => some (t, 2, TopicType.sect)
          | none => none

/-- Decimal digits to a number (`int(...)` on a digit string). -/
def digitsToNat : List Char → Nat → Nat
  | [], acc => acc
  | c :: cs, acc => digitsToNat cs (acc * 10 + (c.toNat - 48))

/-- Embeds `re.search(r'--- Page (\d+) ---', line)`: first position where the page
sentinel matches, returning the page number. -/
def searchPageNumAux : Nat → List Char → Option Nat
  | 0, _ => none
  | fuel+1, s =>
    match s with
    | [] => none
    | _ :: rest =>
      if pageMarkerLit.isPrefixOf s then
        let s1 := s.drop pageMarkerLit.length
        let ds := s1.takeWhile isDigitChar
        if !ds.isEmpty && pageTailLit.isPrefixOf (s1.drop ds.length) then
          some (digitsToNat ds 0)
        else searchPageNumAux fuel rest
      else searchPageNumAux fuel rest

def searchPageNum (s : List Char) : Option Nat := searchPageNumAux s.length s

/-- Embeds `re.match(r'^(Chapter|Section|\d+\.|\#{1,3})', line, re.IGNORECASE)`:
the stop condition of `_extract_topic_content`. -/
def isContentHeader (s : List Char) : Bool :=
  isPrefixCI chapterLit s || isPrefixCI sectionLit s ||
  (let ds := s.takeWhile isDigitChar
   !ds.isEmpty &&
     (match s.drop ds.length with
      | '.' :: _ => true
      | _ => false)) ||
  (match s with
   | '#' :: _ => true
   | _ => false)

/-- The line-collecting loop of `_extract_topic_content`. -/
def contentCollect : List (List Char) → List (List Char)
  | [] => []
  | l :: ls =>
    let s := stripWS l
    if isContentHeader s then []
    else if !s.isEmpty && !(contentPageLit.isPrefixOf s) then s :: contentCollect ls
    else contentCollect ls

/-- Embeds `_extract_topic_content(lines, start_line, max_lines)`: lines
`start_line+1 .. min(start_line+max_lines, len(lines))-1`, stripped, stopping
at the next header, skipping blank and page-marker lines, joined by `'\n'`. -/
def extractTopicContent (ls : List (List Char)) (startLine maxLines : Nat) : List Char :=
  List.intercalate [nlC] (contentCollect ((ls.drop (startLine + 1)).take (maxLines - 1)))

/-! ### Keywords: `_extract_keywords` -/

/-- The fixed stop-word set of `_extract_keywords` (transcribed verbatim;
the Python literal contains duplicates, which do not affect membership). -/
def stopWords : List (List Char) :=
  ([r"the", r"and", r"for", r"are", r"but", r"not", r"you", r"all", r"can",
    r"had", r"her", r"was", r"one", r"our", r"out", r"day", r"get", r"has",
    r"him", r"his", r"how", r"its", r"may", r"new", r"now", r"old", r"see",
    r"two", r"who", r"boy", r"did", r"man", r"way", r"she", r"use", r"her",
    r"many", r"oil", r"sit", r"set", r"run", r"eat", r"far", r"sea", r"eye",
    r"ask", r"own", r"say", r"too", r"any", r"try", r"let", r"put", r"end",
    r"why", r"turn", r"here", r"show", r"every", r"good", r"me", r"give",
    r"our", r"under", r"name", r"very", r"through", r"just", r"form",
    r"sentence", r"great", r"think", r"where", r"help", r"much", r"before",
    r"move", r"right", r"too", r"means", r"old", r"any", r"same", r"tell",
    r"boy", r"follow", r"came", r"want", r"show", r"also", r"around",
    r"farm", r"three", r"small", r"set", r"put", r"end", r"does",
    r"another", r"well", r"large", r"must", r"big", r"even", r"such",
    r"because", r"turn", r"here", r"why", r"ask", r"went", r"men", r"read",
    r"need", r"land", r"different", r"home", r"us", r"move", r"try",
    r"kind", r"hand", r"picture", r"again", r"change", r"off", r"play",
    r"spell", r"air", r"away", r"animal", r"house", r"point", r"page",
    r"letter", r"mother", r"answer", r"found", r"study", r"still",
    r"learn", r"should", r"america", r"world"]).map String.data

/-- Embeds `re.findall(r'\b[A-Za-z]{3,}\b', text.lower())`: on the lowercased text,
a match is a maximal `\w`-run consisting solely of letters with length ≥ 3
(the `\b` boundaries forbid adjacent word characters, so matches are exactly
such runs). -/
def findWords (text : List Char) : List (List Char) :=
  let lowered := text.map toLowerChar
  (runsOf isWordChar lowered).filter (fun r => r.all isAlphaChar && decide (3 ≤ r.length))

/-- The `filtered_words` comprehension: drop stop words and words of length
≤ 3 (note `len(word) > 3`, strictly more than three). -/
def filteredWords (text : List Char) : List (List Char) :=
  (findWords text).filter (fun w => decide (w ∉ stopWords) && decide (3 < w.length))

/-- Embeds `word_freq[word] = word_freq.get(word, 0) + 1` on an insertion-ordered
dict, modelled as an association list: bump the existing entry or append a
new one. -/
def bump (acc : List (List Char × Nat)) (w : List Char) : List (List Char × Nat) :=
  if acc.any (fun p => p.1 == w) then
    acc.map (fun p => if p.1 = w then (p.1, p.2 + 1) else p)
  else acc ++ [(w, 1)]

def buildFreq (ws : List (List Char)) : List (List Char × Nat) := ws.foldl bump []

/-- Embeds `_extract_keywords(text)`: count filtered words, sort by frequency
descending (Python's `sorted` is stable, as is insertion sort), take the
first ten entries and keep those with frequency > 1. -/
def extractKeywords (text : List Char) : List (List Char) :=
  (((List.insertionSort (fun a b => b.2 ≤ a.2)
      (buildFreq (filteredWords text))).take 10).filter
        (fun p => decide (1 < p.2))).map (fun p => p.1)

/-! ### The topic scan and hierarchy inference -/

def topicIdStr (n : Nat) : List Char := (r"topic_").data ++ Nat.toDigits 10 n

/-- Build the `Topic` record appended by `_identify_structural_topics`. -/
def mkTopic (nid : Nat) (title : List Char) (tt : TopicType) (lvl : Nat)
    (content : List Char) (page : Nat) : Topic :=
  ⟨topicIdStr nid, title, tt, lvl, none, content, (page, page),
   extractKeywords content⟩

/-- The main line loop of `_identify_structural_topics`: state is the
current page and the next topic id; `allLines` is kept whole for content
extraction by line index. -/
def topicsLoop (allLines : List (List Char)) :
    List (Nat × List Char) → Nat → Nat → List Topic
  | [], _, _ => []
  | (i, rawLine) :: rest, page, nid =>
    let line := stripWS rawLine
    if pageMarkerLit.isPrefixOf line then
      topicsLoop allLines rest ((searchPageNum line).getD page) nid
    else if line.length < 3 then
      topicsLoop allLines rest page nid
    else
      match headingFirstMatch line with
      | none => topicsLoop allLines rest page nid
      | some (t0, lvl, tt) =>
        let title := stripWS t0
        if decide (2 < title.length) && !isDigitsStr title then
          mkTopic nid title tt lvl (extractTopicContent allLines i 50) page
            :: topicsLoop allLines rest page (nid + 1)
        else
          topicsLoop allLines rest page nid

/-- Backward scan of `_set_parent_relationships`: `before` is the already
processed prefix in reverse order; the first earlier topic with strictly
smaller level provides the parent id. -/
def findParentId (before : List Topic) (lvl : Nat) : Option (List Char) :=
  (before.find? (fun t => decide (t.level < lvl))).map (fun t => t.id)

/-- Embeds `_set_parent_relationships`; the pass rewrites only `parent_id`; the scan reads
only `level` and `id`, which the pass never modifies, so reading the
already-processed prefix is equivalent to reading the input list. -/
def setParentsAux : List Topic → List Topic → List Topic
  | _, [] => []
  | rev, t :: rest =>
    { t with parent_id := findParentId rev t.level } :: setParentsAux (t :: rev) rest

def setParentRelationships (ts : List Topic) : List Topic := setParentsAux [] ts

/-- Python `text.split('\n')`. -/
def linesOf (text : List Char) : List (List Char) := splitOn [nlC] text

/-- The raw topic list of `_identify_structural_topics`, before hierarchy
inference. -/
def structuralCandidates (text : List Char) : List Topic :=
  topicsLoop (linesOf text) (linesOf text).enum 1 1

/-- Embeds `_identify_structural_topics(text)`. -/
def identifyStructuralTopics (text : List Char) : List Topic :=
  setParentRelationships (structuralCandidates text)

/-! ## Formula extraction: `_extract_formulas_by_pattern` -/

/-- A raw formula candidate dictionary (id modelled as the numeric suffix of
`f"formula_{id}"` rendered to the full string). -/
structure RawFormula where
  id : List Char
  latex : List Char
  ftype : List Char
  context : List Char
  position : Nat
  raw : List Char
deriving DecidableEq, Repr

/-- A formula pattern: atoms before the capture group, the group itself,
atoms after it, and the type tag. -/
structure FPat where
  pre : List Atom
  grp : List Atom
  post : List Atom
  ftype : List Char

def isNotDollar (c : Char) : Bool := !(c == '$')

def isNotDollarNL (c : Char) : Bool := !(c == '$') && !(c == nlC)

/-- The class `[^,\.\n]`. -/
def isNotCDN (c : Char) : Bool := !(c == ',') && !(c == '.') && !(c == nlC)

/-- Big operator `∫`, `∑` or `∏`. -/
def isBigOp (c : Char) : Bool := c == '∫' || c == '∑' || c == '∏'

def beginEquationLit : List Char := (r"\begin{equation}").data

def endEquationLit : List Char := (r"\end{equation}").data

def beginAlignLit : List Char := (r"\begin{align}").data

def endAlignLit : List Char := (r"\end{align}").data

/-- The ordered pattern table of `_extract_formulas_by_pattern` (all
compiled with `re.DOTALL | re.IGNORECASE`; `re.DOTALL` only affects the
`.`-classes of the environment patterns, `re.IGNORECASE` the letter
literals). -/
def formulaPatterns : List FPat :=
  [ -- r'\$\$([^$]+)\$\$'
    ⟨[Atom.lit ['$', '$']], [Atom.cls isNotDollar 1 none true],
     [Atom.lit ['$', '$']], (r"display_math").data⟩,
    -- r'\$([^$\n]{3,})\$'
    ⟨[Atom.lit ['$']], [Atom.cls isNotDollarNL 3 none true],
     [Atom.lit ['$']], (r"inline_math").data⟩,
    -- r'\\begin\{equation\}(.*?)\\end\{equation\}'
    ⟨[Atom.litci beginEquationLit], [Atom.cls (fun _ => true) 0 none false],
     [Atom.litci endEquationLit], (r"equation").data⟩,
    -- r'\\begin\{align\}(.*?)\\end\{align\}'
    ⟨[Atom.litci beginAlignLit], [Atom.cls (fun _ => true) 0 none false],
     [Atom.litci endAlignLit], (r"align").data⟩,
    -- r'([A-Za-z_]\w*\s*=\s*[^,\.\n]{5,})'
    ⟨[], [Atom.cls isLetterU 1 (some 1) true, Atom.cls isWordChar 0 none true,
          Atom.cls isSpaceChar 0 none true, Atom.lit ['='],
          Atom.cls isSpaceChar 0 none true, Atom.cls isNotCDN 5 none true],
     [], (r"equation").data⟩,
    -- r'([∫∑∏][^,\.\n]{3,})'
    ⟨[], [Atom.cls isBigOp 1 (some 1) true, Atom.cls isNotCDN 3 none true],
     [], (r"integral_sum").data⟩,
    -- r'([A-Za-z_]\w*\([^)]+\)\s*=\s*[^,\.\n]{3,})'
    ⟨[], [Atom.cls isLetterU 1 (some 1) true, Atom.cls isWordChar 0 none true,
          Atom.lit ['('], Atom.cls (fun c => !(c == ')')) 1 none true,
          Atom.lit [')'], Atom.cls isSpaceChar 0 none true, Atom.lit ['='],
          Atom.cls isSpaceChar 0 none true, Atom.cls isNotCDN 3 none true],
     [], (r"function").data⟩,
    -- r'(d[A-Za-z_]\w*/d[A-Za-z_]\w*[^,\.\n]*)'
    ⟨[], [Atom.litci ['d'], Atom.cls isLetterU 1 (some 1) true,
          Atom.cls isWordChar 0 none true, Atom.lit ['/'], Atom.litci ['d'],
          Atom.cls isLetterU 1 (some 1) true, Atom.cls isWordChar 0 none true,
          Atom.cls isNotCDN 0 none true],
     [], (r"derivative").data⟩,
    -- r'(∂[A-Za-z_]\w*/∂[A-Za-z_]\w*[^,\.\n]*)'
    ⟨[], [Atom.lit ['∂'], Atom.cls isLetterU 1 (some 1) true,
          Atom.cls isWordChar 0 none true, Atom.lit ['/'], Atom.lit ['∂'],
          Atom.cls isLetterU 1 (some 1) true, Atom.cls isWordChar 0 none true,
          Atom.cls isNotCDN 0 none true],
     [], (r"partial_derivative").data⟩ ]

/-- Try a pattern at the start of `s`: on success return
`(pre-length, group-length, total length)` of the first match in
backtracking order, exactly as the Python engine. -/
def tryPat (p : FPat) (s : List Char) : Option (Nat × Nat × Nat) :=
  matchA p.pre s (fun s1 =>
  matchA p.grp s1 (fun s2 =>
  matchA p.post s2 (fun s3 =>
  some (s.length - s1.length, s1.length - s2.length, s.length - s3.length))))

/-- Embeds `re.finditer`: scan left to right, matches do not overlap, scanning
resumes after each match (every pattern here consumes ≥ 1 character).
Returns `(absolute start, pre-length, group-length, total length)`.
`fuel = s.length` suffices since every step consumes a character. -/
def scanAux (p : FPat) : Nat → Nat → List Char → List (Nat × Nat × Nat × Nat)
  | 0, _, _ => []
  | fuel+1, pos, s =>
    match s with
    | [] => []
    | _ :: sTail =>
      match tryPat p s with
      | some (a, b, n) => (pos, a, b, n) :: scanAux p fuel (pos + n) (s.drop n)
      | none => scanAux p fuel (pos + 1) sTail

def finditerP (p : FPat) (s : List Char) : List (Nat × Nat × Nat × Nat) :=
  scanAux p s.length 0 s

def formulaIdStr (n : Nat) : List Char := (r"formula_").data ++ Nat.toDigits 10 n

/-- The per-match body of the extraction loop: strip the group, reject
candidates shorter than 3 characters or purely numeric, capture a ±100
character context window with newlines collapsed to spaces. -/
def buildFromMatches (text : List Char) (ftype : List Char) :
    List (Nat × Nat × Nat × Nat) → Nat → List RawFormula × Nat
  | [], nid => ([], nid)
  | (pos, a, b, n) :: ms, nid =>
    let ft := stripWS ((text.drop (pos + a)).take b)
    if decide (ft.length < 3) || isDigitsStr ft then
      buildFromMatches text ftype ms nid
    else
      let cstart := pos - 100
      let cend := min text.length (pos + n + 100)
      let ctx := stripWS (((text.drop cstart).take (cend - cstart)).map
        (fun c => if c == nlC then ' ' else c))
      let f : RawFormula :=
        ⟨formulaIdStr nid, ft, ftype, ctx, pos, (text.drop pos).take n⟩
      let rest := buildFromMatches text ftype ms (nid + 1)
      (f :: rest.1, rest.2)

/-- All raw candidates, pattern by pattern, threading the id counter. -/
def candsLoop (text : List Char) : List FPat → Nat → List RawFormula
  | [], _ => []
  | p :: ps, nid =>
    let built := buildFromMatches text p.ftype (finditerP p text) nid
    built.1 ++ candsLoop text ps built.2

/-- The candidate list of `_extract_formulas_by_pattern` before
deduplication. -/
def formulaCandidates (text : List Char) : List RawFormula :=
  candsLoop text formulaPatterns 1

/-- Embeds `re.sub(r'\s+', '', latex.lower())`: the normalized deduplication key. -/
def normalizeKey (s : List Char) : List Char :=
  (s.map toLowerChar).filter (fun c => !isSpaceChar c)

/-- The deduplication loop: iterate in position order, keep a formula iff
its normalized key is unseen and longer than 2 characters (the Python local
`normalized` is inlined). -/
def dedupAux (seen : List (List Char)) : List RawFormula → List RawFormula
  | [] => []
  | f :: fs =>
    if normalizeKey f.latex ∉ seen ∧ 2 < (normalizeKey f.latex).length then
      f :: dedupAux (normalizeKey f.latex :: seen) fs
    else dedupAux seen fs

/-- Embeds `sorted(formulas, key=lambda x: x['position'])` — Python's sort is
stable, as is insertion sort. -/
def sortByPosition (l : List RawFormula) : List RawFormula :=
  List.insertionSort (fun a b => a.position ≤ b.position) l

/-- Embeds `_extract_formulas_by_pattern(text)`. -/
def extractFormulasByPattern (text : List Char) : List RawFormula :=
  dedupAux [] (sortByPosition (formulaCandidates text))

/-! ## Topic merging: `_merge_topics` and `_calculate_similarity` -/

/-- Embeds `_calculate_similarity(text1, text2)`: token-set Jaccard similarity,
0 when either token set is empty.  Modelled over `ℚ`; the float comparison
`> 0.7` agrees with the exact rational one for all feasible set sizes. -/
def similarity (t1 t2 : List Char) : ℚ :=
  let w1 := firstSeenAux [] (splitWS t1)
  let w2 := firstSeenAux [] (splitWS t2)
  if w1 = [] ∨ w2 = [] then 0
  else
    let inter := w1.filter (fun w => w ∈ w2)
    let uni := firstSeenAux [] (w1 ++ w2)
    (inter.length : ℚ) / (uni.length : ℚ)

/-- Lowercase a title, as `title.lower()`. -/
def lowerL (s : List Char) : List Char := s.map toLowerChar

/-- The comparison `_calculate_similarity(t1, t2) > 0.7` of `_merge_topics`,
embedded over the integers: the similarity is `|w1 ∩ w2| / |w1 ∪ w2|`
(0 when either token set is empty), and `|∩|/|∪| > 7/10 ⟺ 7·|∪| < 10·|∩|`.
Python compares floats; for the integer set sizes involved the float and the
exact comparison agree (`similarTitles_iff` below relates this to the
rational similarity value). -/
def similarTitles (t1 t2 : List Char) : Bool :=
  let w1 := firstSeenAux [] (splitWS t1)
  let w2 := firstSeenAux [] (splitWS t2)
  if w1.isEmpty || w2.isEmpty then false
  else
    let inter := w1.filter (fun w => w ∈ w2)
    let uni := firstSeenAux [] (w1 ++ w2)
    decide (7 * uni.length < 10 * inter.length)

/-- The inner loop of `_merge_topics`: find the first existing topic whose
title similarity exceeds 0.7; on a hit, extend that topic's keywords with
the candidate's (`list(set(...))` modelled as first-occurrence dedup) and
absorb the candidate.  Returns `none` when no existing topic is similar. -/
def absorb (c : Topic) : List Topic → Option (List Topic)
  | [] => none
  | t :: ts =>
    if similarTitles (lowerL c.title) (lowerL t.title) then
      some ({ t with keywords := firstSeenAux [] (t.keywords ++ c.keywords) } :: ts)
    else
      (absorb c ts).map (fun ts' => t :: ts')

/-- One candidate step of `_merge_topics`: absorbed candidates are dropped,
unabsorbed ones are appended iff their title is longer than 3 characters. -/
def mergeStep (merged : List Topic) (c : Topic) : List Topic :=
  match absorb c merged with
  | some merged' => merged'
  | none => if 3 < c.title.length then merged ++ [c] else merged

/-- Embeds `_merge_topics(structural_topics, ai_topics)`. -/
def mergeTopics (structural candidates : List Topic) : List Topic :=
  candidates.foldl mergeStep structural

/-! ## Concrete texts used by the example-based claims -/

/-- The formula-extraction example input. -/
def c4text : List Char := (r"The law states: $$F = ma$$ and also $F=ma$").data

/-- The heading-segmentation example input. -/
def c5text : List Char :=
  List.intercalate [nlC]
    (([r"Chapter 1: Waves", r"Waves are periodic.", r"",
       r"Section 1.1 Frequency", r"Frequency is cycles per second."]).map String.data)

/-- The chunker example input. -/
def c8text : List Char := (r"A. B. C.").data

end NotesAgent

namespace NotesAgent

/-! ## Theorems -/

/-! ### Hierarchy inference (C2) -/

theorem spa_getElem? (l : List Topic) :
    ∀ (rev : List Topic) (i : Nat),
      (setParentsAux rev l)[i]? =
        (l[i]?).map (fun t =>
          { t with parent_id := findParentId ((l.take i).reverse ++ rev) t.level }) := by
  induction l with
  | nil => intro rev i; simp [setParentsAux]
  | cons t rest ih =>
    intro rev i
    cases i with
    | zero => simp [setParentsAux, findParentId]
    | succ n =>
      simp only [setParentsAux, List.getElem?_cons_succ, ih (t :: rev) n,
        List.take_succ_cons, List.reverse_cons, List.append_assoc,
        List.singleton_append]

theorem spa_forall2 (l : List Topic) :
    ∀ rev, List.Forall₂ (fun a b => a.level = b.level ∧ a.id = b.id)
      (setParentsAux rev l) l := by
  induction l with
  | nil => intro rev; exact List.Forall₂.nil
  | cons t rest ih => intro rev; exact List.Forall₂.cons ⟨rfl, rfl⟩ (ih (t :: rev))

theorem find?_id_congr (lvl : Nat) :
    ∀ {l₁ l₂ : List Topic},
      List.Forall₂ (fun a b => a.level = b.level ∧ a.id = b.id) l₁ l₂ →
      ((l₁.find? (fun u => decide (u.level < lvl))).map (fun u => u.id)) =
        ((l₂.find? (fun u => decide (u.level < lvl))).map (fun u => u.id)) := by
  intro l₁ l₂ h
  induction h with
  | nil => rfl
  | @cons a b m₁ m₂ hab htl ihtl =>
    obtain ⟨hlvl, hid⟩ := hab
    by_cases hb : b.level < lvl
    · have ha : a.level < lvl := by rw [hlvl]; exact hb
      rw [List.find?_cons_of_pos _ (by simpa using ha),
          List.find?_cons_of_pos _ (by simpa using hb)]
      simp [hid]
    · have ha : ¬ a.level < lvl := by rw [hlvl]; exact hb
      rw [List.find?_cons_of_neg _ (by simpa using ha),
          List.find?_cons_of_neg _ (by simpa using hb)]
      exact ihtl

theorem find?_reverse_take {α : Type} (p : α → Bool) (l : List α) (i : Nat) (a : α)
    (h : ((l.take i).reverse.find? p) = some a) :
    ∃ j, j < i ∧ l[j]? = some a ∧ p a = true ∧
      ∀ k b, j < k → k < i → l[k]? = some b → p b = false := by
  obtain ⟨ha, l₁, l₂, hdecomp, hl₁⟩ := List.find?_eq_some.mp h
  have htake : l.take i = l₂.reverse ++ a :: l₁.reverse := by
    have h2 := congrArg List.reverse hdecomp
    simpa [List.reverse_append] using h2
  have hlen : (l.take i).length = l₂.reverse.length + (l₁.reverse.length + 1) := by
    rw [htake, List.length_append, List.length_cons]
  have hlt : l₂.reverse.length < i := by
    have h3 : (l.take i).length ≤ i := by
      rw [List.length_take]; exact Nat.min_le_left i l.length
    omega
  refine ⟨l₂.reverse.length, hlt, ?_, ha, ?_⟩
  · rw [← List.getElem?_take_of_lt hlt, htake,
      List.getElem?_append_right (Nat.le_refl _)]
    simp
  · intro k b hjk hki hk
    have hkth : (l₂.reverse ++ a :: l₁.reverse)[k]? = some b := by
      rw [← htake, List.getElem?_take_of_lt hki]; exact hk
    rw [List.getElem?_append_right (Nat.le_of_lt hjk)] at hkth
    have hpos : 0 < k - l₂.reverse.length := by omega
    obtain ⟨m, hm⟩ : ∃ m, k - l₂.reverse.length = m + 1 :=
      ⟨k - l₂.reverse.length - 1, by omega⟩
    rw [hm, List.getElem?_cons_succ] at hkth
    have hmem : b ∈ l₁ := by
      have := List.getElem?_mem hkth
      simpa using this
    simpa using hl₁ b hmem

/-- Claim C2: for every input text, the topic at index `i` of
`_identify_structural_topics` has `parent_id` equal to the id delivered by a
backward `find?` over the preceding topics (none when no preceding topic has
a strictly smaller level); consequently a non-null `parent_id` is the id of
a preceding topic with strictly smaller level, and the referenced topic is
the nearest such one. -/
theorem c2_thm (text : List Char) (i : Nat) (t : Topic)
    (h : (identifyStructuralTopics text)[i]? = some t) :
    t.parent_id =
      (((identifyStructuralTopics text).take i).reverse.find?
          (fun u => decide (u.level < t.level))).map (fun u => u.id)
    ∧ ∀ pid, t.parent_id = some pid →
        ∃ j t', j < i ∧ (identifyStructuralTopics text)[j]? = some t' ∧
          t'.level < t.level ∧ t'.id = pid ∧
          ∀ k t'', j < k → k < i →
            (identifyStructuralTopics text)[k]? = some t'' →
            ¬ t''.level < t.level := by
  set its := identifyStructuralTopics text with hits
  set raw := structuralCandidates text with hraw
  have hspa : its = setParentsAux [] raw := rfl
  have hget := spa_getElem? raw [] i
  rw [← hspa] at hget
  rw [hget] at h
  match hr : raw[i]? with
  | none => rw [hr] at h; cases h
  | some rt =>
    rw [hr] at h
    simp only [Option.map_some', List.append_nil, Option.some.injEq] at h
    subst h
    have hforall : List.Forall₂ (fun a b => a.level = b.level ∧ a.id = b.id)
        ((its.take i).reverse) ((raw.take i).reverse) :=
      List.forall₂_reverse_iff.mpr
        (List.forall₂_take i (by rw [hspa]; exact spa_forall2 raw []))
    have hcongr := find?_id_congr rt.level hforall
    constructor
    · show findParentId (raw.take i).reverse rt.level =
        ((its.take i).reverse.find? (fun u => decide (u.level < rt.level))).map
          (fun u => u.id)
      rw [findParentId]
      exact hcongr.symm
    · intro pid hpid
      replace hpid :
          (((raw.take i).reverse.find? (fun u => decide (u.level < rt.level))).map
            (fun u => u.id)) = some pid := hpid
      have hits2 :
          (((its.take i).reverse.find? (fun u => decide (u.level < rt.level))).map
            (fun u => u.id)) = some pid := hcongr.trans hpid
      obtain ⟨v, hv, hvid⟩ : ∃ v,
          (its.take i).reverse.find? (fun u => decide (u.level < rt.level)) = some v ∧
            v.id = pid := by
        match hfi : (its.take i).reverse.find? (fun u => decide (u.level < rt.level)) with
        | none => rw [hfi] at hits2; cases hits2
        | some v =>
          rw [hfi] at hits2
          exact ⟨v, hfi, by injection hits2⟩
      obtain ⟨j, hj, hjget, hpv, hafter⟩ :=
        find?_reverse_take (fun u => decide (u.level < rt.level)) its i v hv
      refine ⟨j, v, hj, hjget, by simpa using hpv, hvid, ?_⟩
      intro k t'' hjk hki hkget
      have hfalse := hafter k t'' hjk hki hkget
      simpa using hfalse

/-- Claim C2 (witness): instantiated on the heading-segmentation example
text at index 1, whose parent is the `Waves` chapter at index 0. -/
theorem c2_witness :
    ∃ t, (identifyStructuralTopics c5text)[1]? = some t ∧
      (t.parent_id =
        (((identifyStructuralTopics c5text).take 1).reverse.find?
            (fun u => decide (u.level < t.level))).map (fun u => u.id)) ∧
      t.parent_id = some ((r"topic_1").data) := by
  refine ⟨⟨(r"topic_2").data, (r"1 Frequency").data, TopicType.sect, 2,
    some ((r"topic_1").data),
    (r"Frequency is cycles per second.").data, (1, 1), []⟩, by decide, ?_, by decide⟩
  exact (c2_thm c5text 1 _ (by decide)).1

/-- Claim C4 (counterexample): on the input
`"The law states: $$F = ma$$ and also $F=ma$"` the pattern-based formula
extractor does not return exactly one formula — the inline-math pattern also
matches `$ and also $` between the two displayed formulas, and the bare
equation pattern matches from `F` to the end of the text, so three
normalized keys survive deduplication. -/
theorem c4_counterexample : ¬ (extractFormulasByPattern c4text).length = 1 := by
  decide

/-- Claim C4 (amended): on the example input the extractor returns exactly
three formulas after deduplication; in position order their normalized
(whitespace-removed, lowercased) forms are `f=ma`, `f=ma$$andalso$f=ma$` and
`andalso`, so exactly the first has normalized form `f=ma`. -/
theorem c4_amended_thm :
    (extractFormulasByPattern c4text).map (fun f => normalizeKey f.latex) =
      [(r"f=ma").data, (r"f=ma$$andalso$f=ma$").data, (r"andalso").data] := by
  decide

/-- Claim C5 (counterexample): on the example input the second topic's title
is not `"Frequency"`: the `Section`-pattern's `(\d+)` group consumes only the
first digit of `1.1`, the optional `[:\.]` consumes the dot, and the trailing
`(.+)` captures `1 Frequency`. -/
theorem c5_counterexample :
    ¬ (identifyStructuralTopics c5text).map Topic.title =
        [(r"Waves").data, (r"Frequency").data] := by
  decide

/-- Claim C5 (amended): the segmenter returns exactly two topics — a level-1
chapter `Waves` with no parent, and a level-2 section titled `1 Frequency`
(not `Frequency`) whose parent is the `Waves` topic's id. -/
theorem c5_amended_thm :
    identifyStructuralTopics c5text =
      [⟨(r"topic_1").data, (r"Waves").data, TopicType.chapter, 1, none,
        (r"Waves are periodic.").data, (1, 1), []⟩,
       ⟨(r"topic_2").data, (r"1 Frequency").data, TopicType.sect, 2,
        some ((r"topic_1").data),
        (r"Frequency is cycles per second.").data, (1, 1), []⟩] := by
  decide

/-! ### Topic merging (C7, C10) -/

/-- All fields of the two topics agree except possibly `keywords` — the only
field `_merge_topics` may rewrite on an existing topic. -/
def sameExceptKeywords (a b : Topic) : Prop :=
  a.id = b.id ∧ a.title = b.title ∧ a.ttype = b.ttype ∧ a.level = b.level ∧
    a.parent_id = b.parent_id ∧ a.content = b.content ∧ a.page_range = b.page_range

theorem sameEK_refl (a : Topic) : sameExceptKeywords a a :=
  ⟨rfl, rfl, rfl, rfl, rfl, rfl, rfl⟩

theorem sameEK_trans {a b c : Topic} (h₁ : sameExceptKeywords a b)
    (h₂ : sameExceptKeywords b c) : sameExceptKeywords a c := by
  obtain ⟨e1, e2, e3, e4, e5, e6, e7⟩ := h₁
  obtain ⟨f1, f2, f3, f4, f5, f6, f7⟩ := h₂
  exact ⟨e1.trans f1, e2.trans f2, e3.trans f3, e4.trans f4, e5.trans f5,
    e6.trans f6, e7.trans f7⟩

theorem forall2_sameEK_trans :
    ∀ {l₁ l₂ l₃ : List Topic}, List.Forall₂ sameExceptKeywords l₁ l₂ →
      List.Forall₂ sameExceptKeywords l₂ l₃ →
      List.Forall₂ sameExceptKeywords l₁ l₃ := by
  intro l₁ l₂ l₃ h₁
  induction h₁ generalizing l₃ with
  | nil => intro h₂; cases h₂; exact List.Forall₂.nil
  | cons hab htl ih =>
    intro h₂
    cases h₂ with
    | cons hbc htl₂ => exact List.Forall₂.cons (sameEK_trans hab hbc) (ih htl₂)

theorem forall2_mem_left {R : Topic → Topic → Prop} :
    ∀ {l₁ l₂ : List Topic}, List.Forall₂ R l₁ l₂ → ∀ a ∈ l₁, ∃ b ∈ l₂, R a b := by
  intro l₁ l₂ h
  induction h with
  | nil => intro a ha; cases ha
  | @cons x y m₁ m₂ hxy htl ih =>
    intro a ha
    rcases List.mem_cons.mp ha with rfl | ha'
    · exact ⟨y, List.mem_cons_self _ _, hxy⟩
    · obtain ⟨b, hb, hab⟩ := ih a ha'
      exact ⟨b, List.mem_cons_of_mem _ hb, hab⟩

/-- A successful `absorb` rewrites only the keywords of exactly one element;
every position keeps all other fields. -/
theorem absorb_forall2 (c : Topic) :
    ∀ (l l' : List Topic), absorb c l = some l' →
      List.Forall₂ sameExceptKeywords l' l := by
  intro l
  induction l with
  | nil => intro l' h; cases h
  | cons t ts ih =>
    intro l' h
    unfold absorb at h
    split at h
    · injection h with h'
      subst h'
      exact List.Forall₂.cons ⟨rfl, rfl, rfl, rfl, rfl, rfl, rfl⟩
        (List.forall₂_same.mpr (fun x _ => sameEK_refl x))
    · cases habs : absorb c ts with
      | none => rw [habs] at h; cases h
      | some ts' =>
        rw [habs] at h
        simp only [Option.map_some', Option.some.injEq] at h
        subst h
        exact List.Forall₂.cons (sameEK_refl t) (ih ts' habs)

/-- The integer comparison `similarTitles` is exactly the strict rational
comparison of the Jaccard similarity against `7/10`. -/
theorem similarTitles_iff (t1 t2 : List Char) :
    similarTitles t1 t2 = true ↔ (7 : ℚ) / 10 < similarity t1 t2 := by
  unfold similarTitles similarity
  set w1 := firstSeenAux [] (splitWS t1) with hw1
  set w2 := firstSeenAux [] (splitWS t2) with hw2
  by_cases he : w1.isEmpty || w2.isEmpty
  · have he' : w1 = [] ∨ w2 = [] := by
      rcases Bool.or_eq_true_iff.mp he with h | h
      · exact Or.inl (List.isEmpty_iff.mp h)
      · exact Or.inr (List.isEmpty_iff.mp h)
    rw [if_pos he, if_pos he']
    simp only [Bool.false_eq_true, false_iff, not_lt]
    positivity
  · have he' : ¬ (w1 = [] ∨ w2 = []) := by
      rintro (h | h)
      · exact he (by rw [h]; simp)
      · exact he (by rw [h]; simp)
    rw [if_neg he, if_neg he']
    have hw1ne : w1 ≠ [] := fun h => he' (Or.inl h)
    have huni : 0 < (firstSeenAux [] (w1 ++ w2)).length := by
      cases hw : w1 with
      | nil => exact absurd rfl (hw ▸ hw1ne)
      | cons w ws => simp [firstSeenAux]
    constructor
    · intro h
      have h' := of_decide_eq_true h
      rw [div_lt_div_iff₀ (by norm_num) (by exact_mod_cast huni)]
      exact_mod_cast (by omega : (7 : ℕ) *
        (firstSeenAux [] (w1 ++ w2)).length <
          (w1.filter (fun w => w ∈ w2)).length * 10)
    · intro h
      rw [div_lt_div_iff₀ (by norm_num) (by exact_mod_cast huni)] at h
      refine decide_eq_true ?_
      have h' : (7 : ℕ) * (firstSeenAux [] (w1 ++ w2)).length <
          (w1.filter (fun w => w ∈ w2)).length * 10 := by exact_mod_cast h
      omega

/-- When no existing topic is similar enough, `absorb` fails. -/
theorem absorb_none (c : Topic) :
    ∀ l, (∀ t ∈ l, similarTitles (lowerL c.title) (lowerL t.title) = false) →
      absorb c l = none := by
  intro l
  induction l with
  | nil => intro _; rfl
  | cons t ts ih =>
    intro h
    unfold absorb
    rw [if_neg (by rw [h t (List.mem_cons_self _ _)]; exact Bool.false_ne_true),
      ih (fun u hu => h u (List.mem_cons_of_mem _ hu))]
    rfl

/-- Invariant carried through the candidate fold of `_merge_topics`. -/
def MergeInv (S C0 : List Topic) (m : List Topic) : Prop :=
  ∃ pre suf, m = pre ++ suf ∧ List.Forall₂ sameExceptKeywords pre S ∧
    ∀ a ∈ suf, ∃ c ∈ C0, sameExceptKeywords a c

theorem mergeStep_inv {S C0 : List Topic} {m : List Topic} {c : Topic}
    (hc : c ∈ C0) (h : MergeInv S C0 m) : MergeInv S C0 (mergeStep m c) := by
  obtain ⟨pre, suf, rfl, hpre, hsuf⟩ := h
  unfold mergeStep
  cases habs : absorb c (pre ++ suf) with
  | some m' =>
    have hrel := absorb_forall2 c (pre ++ suf) m' habs
    have hpre' : List.Forall₂ sameExceptKeywords (m'.take pre.length) pre :=
      List.forall₂_take_append m' pre suf hrel
    have hsuf' : List.Forall₂ sameExceptKeywords (m'.drop pre.length) suf :=
      List.forall₂_drop_append m' pre suf hrel
    refine ⟨m'.take pre.length, m'.drop pre.length, (List.take_append_drop _ m').symm,
      forall2_sameEK_trans hpre' hpre, ?_⟩
    intro a ha
    obtain ⟨b, hb, hab⟩ := forall2_mem_left hsuf' a ha
    obtain ⟨c', hc', hbc'⟩ := hsuf b hb
    exact ⟨c', hc', sameEK_trans hab hbc'⟩
  | none =>
    by_cases hlen : 3 < c.title.length
    · rw [if_pos hlen]
      refine ⟨pre, suf ++ [c], by rw [List.append_assoc], hpre, ?_⟩
      intro a ha
      rcases List.mem_append.mp ha with ha' | ha'
      · exact hsuf a ha'
      · rw [List.mem_singleton.mp ha']
        exact ⟨c, hc, sameEK_refl c⟩
    · rw [if_neg hlen]
      exact ⟨pre, suf, rfl, hpre, hsuf⟩

theorem mergeFold_inv {S C0 : List Topic} :
    ∀ (cs : List Topic) (m : List Topic), (∀ c ∈ cs, c ∈ C0) →
      MergeInv S C0 m → MergeInv S C0 (cs.foldl mergeStep m) := by
  intro cs
  induction cs with
  | nil => intro m _ h; exact h
  | cons c cs' ih =>
    intro m hsub h
    exact ih (mergeStep m c) (fun x hx => hsub x (List.mem_cons_of_mem _ hx))
      (mergeStep_inv (hsub c (List.mem_cons_self _ _)) h)

/-- Claim C10: `_merge_topics` keeps the structural topics as the first
`|S|` elements of its output, in order, each unchanged in every field except
possibly `keywords`; everything after that prefix is (up to keyword
enrichment) a candidate topic, and candidates are only appended. -/
theorem c10_thm (S C : List Topic) :
    S.length ≤ (mergeTopics S C).length ∧
      List.Forall₂ sameExceptKeywords ((mergeTopics S C).take S.length) S ∧
      ∀ a ∈ (mergeTopics S C).drop S.length, ∃ c ∈ C, sameExceptKeywords a c := by
  have hinv : MergeInv S C (mergeTopics S C) := by
    refine mergeFold_inv C S (fun c hc => hc) ?_
    exact ⟨S, [], (List.append_nil S).symm,
      List.forall₂_same.mpr (fun x _ => sameEK_refl x), by intro a ha; cases ha⟩
  obtain ⟨pre, suf, heq, hpre, hsuf⟩ := hinv
  have hplen : pre.length = S.length := hpre.length_eq
  constructor
  · rw [heq, List.length_append, ← hplen]
    exact Nat.le_add_right _ _
  constructor
  · rw [heq, List.take_left' hplen]
    exact hpre
  · rw [heq, List.drop_left' hplen]
    exact hsuf

/-- Claim C10 (witness): instantiated on a concrete structural list and
candidate list. -/
theorem c10_witness :
    (let S := [⟨(r"s1").data, (r"quantum mechanics").data, TopicType.chapter, 1,
      none, [], (1, 1), [(r"quantum").data]⟩]
     let C := [⟨(r"a1").data, (r"quantum mechanics").data, TopicType.concept, 2,
      none, [], (1, 1), [(r"physics").data]⟩]
     S.length ≤ (mergeTopics S C).length ∧
      List.Forall₂ sameExceptKeywords ((mergeTopics S C).take S.length) S ∧
      ∀ a ∈ (mergeTopics S C).drop S.length, ∃ c ∈ C, sameExceptKeywords a c) :=
  c10_thm _ _

/-- Claim C7 (counterexample): with an empty structural list, two candidates
with identical (hence 1.0-similar) titles do not both survive — the second
is absorbed into the first, so `merge_topics([], candidates)` is not the
title-length filter of the candidates. -/
theorem c7_counterexample :
    ¬ (let cs : List Topic :=
        [⟨(r"a1").data, (r"wave physics").data, TopicType.concept, 2, none, [],
          (1, 1), [(r"k1").data]⟩,
         ⟨(r"a2").data, (r"wave physics").data, TopicType.concept, 2, none, [],
          (1, 1), [(r"k2").data]⟩]
       mergeTopics [] cs = cs.filter (fun c => decide (3 < c.title.length))) := by
  decide

theorem mergeFold_filter (cs : List Topic) :
    ∀ (m : List Topic),
      (∀ t ∈ m, ∀ c ∈ cs, similarTitles (lowerL c.title) (lowerL t.title) = false) →
      List.Pairwise
        (fun a b => similarTitles (lowerL b.title) (lowerL a.title) = false) cs →
      cs.foldl mergeStep m = m ++ cs.filter (fun c => decide (3 < c.title.length)) := by
  induction cs with
  | nil => intro m _ _; simp
  | cons c cs' ih =>
    intro m hm hpw
    have hpw' := List.pairwise_cons.mp hpw
    have hstep : mergeStep m c =
        if 3 < c.title.length then m ++ [c] else m := by
      unfold mergeStep
      rw [absorb_none c m (fun t ht => hm t ht c (List.mem_cons_self _ _))]
    have hm' : ∀ t ∈ (if 3 < c.title.length then m ++ [c] else m), ∀ c' ∈ cs',
        similarTitles (lowerL c'.title) (lowerL t.title) = false := by
      intro t ht c' hc'
      by_cases hlen : 3 < c.title.length
      · rw [if_pos hlen] at ht
        rcases List.mem_append.mp ht with ht' | ht'
        · exact hm t ht' c' (List.mem_cons_of_mem _ hc')
        · rw [List.mem_singleton.mp ht']
          exact hpw'.1 c' hc'
      · rw [if_neg hlen] at ht
        exact hm t ht c' (List.mem_cons_of_mem _ hc')
    rw [List.foldl_cons, hstep, ih _ hm' hpw'.2]
    by_cases hlen : 3 < c.title.length
    · rw [if_pos hlen, List.filter_cons_of_pos (by simpa using hlen), List.append_assoc]
      rfl
    · rw [if_neg hlen, List.filter_cons_of_neg (by simpa using hlen)]

/-- Claim C7 (amended): `merge_topics([], candidates)` returns exactly the
candidates with title length > 3, each as a distinct entry, provided no
candidate's lowercased title has Jaccard similarity above 0.7 with an
earlier candidate's; a candidate that is similar to an earlier retained one
is instead absorbed into it (see the counterexample).  The hypothesis uses
the executable comparison `similarTitles`, which `similarTitles_iff` proves
equivalent to `7/10 < similarity`. -/
theorem c7_amended_thm (cs : List Topic)
    (h : List.Pairwise
      (fun a b => similarTitles (lowerL b.title) (lowerL a.title) = false) cs) :
    mergeTopics [] cs = cs.filter (fun c => decide (3 < c.title.length)) := by
  have := mergeFold_filter cs [] (by intro t ht; cases ht) h
  simpa [mergeTopics] using this

/-- Claim C7 (witness): two dissimilar candidates and one short-titled
candidate — the merge keeps exactly the two long-titled ones. -/
theorem c7_witness :
    (let cs : List Topic :=
      [⟨(r"a1").data, (r"alpha beta").data, TopicType.concept, 2, none, [],
        (1, 1), []⟩,
       ⟨(r"a2").data, (r"gamma delta").data, TopicType.concept, 2, none, [],
        (1, 1), []⟩,
       ⟨(r"a3").data, (r"abc").data, TopicType.concept, 2, none, [], (1, 1), []⟩]
     mergeTopics [] cs = cs.filter (fun c => decide (3 < c.title.length))) := by
  exact c7_amended_thm _ (by decide)

/-! ### Formula deduplication (C1) -/

theorem dedupAux_spec (l : List RawFormula) :
    ∀ seen,
      (∀ f ∈ dedupAux seen l,
        normalizeKey f.latex ∉ seen ∧ 2 < (normalizeKey f.latex).length) ∧
      List.Pairwise (fun f g => normalizeKey f.latex ≠ normalizeKey g.latex)
        (dedupAux seen l) := by
  induction l with
  | nil => intro seen; exact ⟨fun f hf => absurd hf (List.not_mem_nil f), List.Pairwise.nil⟩
  | cons f fs ih =>
    intro seen
    unfold dedupAux
    split
    · rename_i hkeep
      obtain ⟨hnotin, hlen⟩ := hkeep
      have ihh := ih (normalizeKey f.latex :: seen)
      constructor
      · intro g hg
        rcases List.mem_cons.mp hg with rfl | hg'
        · exact ⟨hnotin, hlen⟩
        · have := (ihh.1 g hg').1
          exact ⟨fun hgseen => this (List.mem_cons_of_mem _ hgseen), (ihh.1 g hg').2⟩
      · refine List.Pairwise.cons ?_ ihh.2
        intro g hg
        have := (ihh.1 g hg).1
        intro heq
        exact this (heq ▸ List.mem_cons_self _ _)
    · exact ih seen

theorem dedupAux_subset (l : List RawFormula) :
    ∀ seen f, f ∈ dedupAux seen l → f ∈ l := by
  induction l with
  | nil => intro seen f hf; cases hf
  | cons g gs ih =>
    intro seen f hf
    unfold dedupAux at hf
    split at hf
    · rcases List.mem_cons.mp hf with rfl | hf'
      · exact List.mem_cons_self _ _
      · exact List.mem_cons_of_mem _ (ih _ f hf')
    · exact List.mem_cons_of_mem _ (ih _ f hf)

/-- The first candidate (in list order) carrying an unseen key longer than
two characters survives deduplication, and nothing before it carries the
key. -/
theorem dedupAux_first (key : List Char) :
    ∀ (l : List RawFormula) (seen : List (List Char)),
      key ∉ seen → 2 < key.length →
      key ∈ l.map (fun f => normalizeKey f.latex) →
      ∃ f l₁ l₂, l = l₁ ++ f :: l₂ ∧ normalizeKey f.latex = key ∧
        (∀ x ∈ l₁, normalizeKey x.latex ≠ key) ∧ f ∈ dedupAux seen l := by
  intro l
  induction l with
  | nil => intro seen _ _ hk; cases hk
  | cons f₀ fs ih =>
    intro seen hseen hlen hk
    by_cases hhd : normalizeKey f₀.latex = key
    · refine ⟨f₀, [], fs, rfl, hhd, ?_, ?_⟩
      · intro x hx; cases hx
      · unfold dedupAux
        rw [if_pos ⟨by rw [hhd]; exact hseen, by rw [hhd]; exact hlen⟩]
        exact List.mem_cons_self _ _
    · have hk' : key ∈ fs.map (fun f => normalizeKey f.latex) := by
        rcases List.mem_map.mp hk with ⟨g, hg, hgk⟩
        rcases List.mem_cons.mp hg with rfl | hg'
        · exact absurd hgk hhd
        · exact List.mem_map.mpr ⟨g, hg', hgk⟩
      unfold dedupAux
      split
      · rename_i hkeep
        have hseen' : key ∉ normalizeKey f₀.latex :: seen := by
          intro hmem
          rcases List.mem_cons.mp hmem with heq | hmem'
          · exact hhd heq.symm
          · exact hseen hmem'
        obtain ⟨f, l₁, l₂, hdec, hfk, hpre, hmem⟩ :=
          ih (normalizeKey f₀.latex :: seen) hseen' hlen hk'
        refine ⟨f, f₀ :: l₁, l₂, by rw [hdec]; rfl, hfk, ?_,
          List.mem_cons_of_mem _ hmem⟩
        intro x hx
        rcases List.mem_cons.mp hx with rfl | hx'
        · exact hhd
        · exact hpre x hx'
      · obtain ⟨f, l₁, l₂, hdec, hfk, hpre, hmem⟩ := ih seen hseen hlen hk'
        refine ⟨f, f₀ :: l₁, l₂, by rw [hdec]; rfl, hfk, ?_, hmem⟩
        intro x hx
        rcases List.mem_cons.mp hx with rfl | hx'
        · exact hhd
        · exact hpre x hx'

/-- Claim C1 (amended): the deduplicated output of
`_extract_formulas_by_pattern` has pairwise-distinct normalized keys, and
for every normalized key of length > 2 occurring among the raw candidates
the surviving record is a candidate with that key of minimal source
position.  (Keys of length ≤ 2 are dropped entirely — see the
counterexample — which is the only divergence from the claim as stated.) -/
theorem c1_amended_thm (text : List Char) (key : List Char)
    (hk : key ∈ (formulaCandidates text).map (fun f => normalizeKey f.latex))
    (hlen : 2 < key.length) :
    List.Pairwise (fun f g => normalizeKey f.latex ≠ normalizeKey g.latex)
        (extractFormulasByPattern text) ∧
      ∃ f, f ∈ extractFormulasByPattern text ∧ f ∈ formulaCandidates text ∧
        normalizeKey f.latex = key ∧
        ∀ g ∈ formulaCandidates text, normalizeKey g.latex = key →
          f.position ≤ g.position := by
  haveI htot : IsTotal RawFormula (fun a b => a.position ≤ b.position) :=
    ⟨fun a b => Nat.le_total _ _⟩
  haveI htrans : IsTrans RawFormula (fun a b => a.position ≤ b.position) :=
    ⟨fun _ _ _ => Nat.le_trans⟩
  have hperm : (sortByPosition (formulaCandidates text)).Perm (formulaCandidates text) :=
    List.perm_insertionSort _ _
  have hsorted : List.Pairwise (fun a b => a.position ≤ b.position)
      (sortByPosition (formulaCandidates text)) :=
    List.sorted_insertionSort _ _
  refine ⟨(dedupAux_spec _ []).2, ?_⟩
  have hk' : key ∈ (sortByPosition (formulaCandidates text)).map
      (fun f => normalizeKey f.latex) :=
    ((hperm.map _).mem_iff).mpr hk
  obtain ⟨f, l₁, l₂, hdec, hfk, hpre, hmem⟩ :=
    dedupAux_first key (sortByPosition (formulaCandidates text)) []
      (List.not_mem_nil key) hlen hk'
  refine ⟨f, hmem, ?_, hfk, ?_⟩
  · refine hperm.mem_iff.mp ?_
    rw [hdec]
    exact List.mem_append_right l₁ (List.mem_cons_self f l₂)
  · intro g hg hgk
    have hgs : g ∈ sortByPosition (formulaCandidates text) := hperm.mem_iff.mpr hg
    rw [hdec] at hgs hsorted
    rcases List.mem_append.mp hgs with hg1 | hg2
    · exact absurd hgk (hpre g hg1)
    · rcases List.mem_cons.mp hg2 with rfl | hg3
      · exact Nat.le_refl _
      · have htail : List.Pairwise (fun a b => a.position ≤ b.position) (f :: l₂) :=
          hsorted.sublist (List.sublist_append_right l₁ (f :: l₂))
        exact (List.pairwise_cons.mp htail).1 g hg3

/-- Claim C1 (counterexample): on the input `"$a b$ x"` the inline-math
pattern yields the raw candidate `a b`, whose normalized key `ab` has length
2, so no record with that key survives — contradicting the claim that every
normalized key occurring among the raw candidates has a surviving record at
minimal position. -/
theorem c1_counterexample :
    ((r"ab").data ∈ (formulaCandidates ((r"$a b$ x").data)).map
        (fun f => normalizeKey f.latex)) ∧
      extractFormulasByPattern ((r"$a b$ x").data) = [] := by
  decide

/-- Claim C1 (witness): instantiated on the example text with key `f=ma`. -/
theorem c1_witness :
    List.Pairwise (fun f g => normalizeKey f.latex ≠ normalizeKey g.latex)
        (extractFormulasByPattern c4text) ∧
      ∃ f, f ∈ extractFormulasByPattern c4text ∧ f ∈ formulaCandidates c4text ∧
        normalizeKey f.latex = (r"f=ma").data ∧
        ∀ g ∈ formulaCandidates c4text, normalizeKey g.latex = (r"f=ma").data →
          f.position ≤ g.position :=
  c1_amended_thm c4text ((r"f=ma").data) (by decide) (by decide)

/-! ### Chunker bounds (C3) -/

/-- What can be said about a chunk the splitter emits: it is within one
token of the budget (the `". "` rejoin slack), or it is a whole paragraph of
the input (moved wholesale without a budget re-check), or it is a single
sentence of some paragraph (emitted whole when oversized). -/
def ChunkOk (text : List Char) (B : Nat) (c : List Char) : Prop :=
  c.length / 4 ≤ B + 1 ∨ c ∈ paragraphsOf text ∨
    ∃ p ∈ paragraphsOf text, c ∈ sentencesOf p

/-- Invariant of the chunking folds: every emitted chunk and any non-empty
`current_chunk` satisfies `ChunkOk`. -/
def ChunkInv (text : List Char) (B : Nat) (st : List (List Char) × List Char) : Prop :=
  (∀ c ∈ st.1, ChunkOk text B c) ∧ (st.2 = [] ∨ ChunkOk text B st.2)

theorem sentStep_inv {text : List Char} {B : Nat} {p : List Char}
    (hp : p ∈ paragraphsOf text) {st : List (List Char) × List Char}
    (hst : ChunkInv text B st) {s : List Char} (hs : s ∈ sentencesOf p) :
    ChunkInv text B (sentStep B st s) := by
  obtain ⟨hchunks, hcur⟩ := hst
  have hsOk : ChunkOk text B s := Or.inr (Or.inr ⟨p, hp, hs⟩)
  unfold sentStep
  by_cases hover : B < (st.2.length + s.length) / 4
  · rw [if_pos hover]
    by_cases h0 : st.2 = []
    · rw [if_pos h0]
      refine ⟨?_, Or.inl h0⟩
      intro c hc
      rcases List.mem_append.mp hc with hc' | hc'
      · exact hchunks c hc'
      · rw [List.mem_singleton.mp hc']; exact hsOk
    · rw [if_neg h0]
      refine ⟨?_, Or.inr hsOk⟩
      intro c hc
      rcases List.mem_append.mp hc with hc' | hc'
      · exact hchunks c hc'
      · rw [List.mem_singleton.mp hc']
        exact hcur.resolve_left h0
  · rw [if_neg hover]
    refine ⟨hchunks, Or.inr ?_⟩
    by_cases h0 : st.2 = []
    · rw [if_pos h0]; exact hsOk
    · rw [if_neg h0]
      left
      show (st.2 ++ '.' :: ' ' :: s).length / 4 ≤ B + 1
      have hlen : (st.2 ++ '.' :: ' ' :: s).length = st.2.length + (s.length + 1 + 1) := by
        rw [List.length_append, List.length_cons, List.length_cons]
      rw [hlen]
      omega

theorem sentFold_inv {text : List Char} {B : Nat} {p : List Char}
    (hp : p ∈ paragraphsOf text) :
    ∀ (ss : List (List Char)) (st : List (List Char) × List Char),
      (∀ s ∈ ss, s ∈ sentencesOf p) → ChunkInv text B st →
      ChunkInv text B (ss.foldl (sentStep B) st) := by
  intro ss
  induction ss with
  | nil => intro st _ h; exact h
  | cons s ss' ih =>
    intro st hall h
    exact ih _ (fun x hx => hall x (List.mem_cons_of_mem _ hx))
      (sentStep_inv hp h (hall s (List.mem_cons_self _ _)))

theorem paraStep_inv {text : List Char} {B : Nat}
    {st : List (List Char) × List Char} (hst : ChunkInv text B st)
    {p : List Char} (hp : p ∈ paragraphsOf text) :
    ChunkInv text B (paraStep B st p) := by
  obtain ⟨hchunks, hcur⟩ := hst
  have hpOk : ChunkOk text B p := Or.inr (Or.inl hp)
  unfold paraStep
  by_cases hover :
      B < (if st.2 = [] then p else st.2 ++ paragraphSep ++ p).length / 4
  · rw [if_pos hover]
    by_cases h0 : st.2 = []
    · rw [if_pos h0]
      exact sentFold_inv hp (sentencesOf p) st (fun s hs => hs) ⟨hchunks, hcur⟩
    · rw [if_neg h0]
      refine ⟨?_, Or.inr hpOk⟩
      intro c hc
      rcases List.mem_append.mp hc with hc' | hc'
      · exact hchunks c hc'
      · rw [List.mem_singleton.mp hc']
        exact hcur.resolve_left h0
  · rw [if_neg hover]
    refine ⟨hchunks, Or.inr ?_⟩
    by_cases h0 : st.2 = []
    · rw [if_pos h0]; exact hpOk
    · rw [if_neg h0]
      left
      rw [if_neg h0] at hover
      show (st.2 ++ paragraphSep ++ p).length / 4 ≤ B + 1
      omega

theorem paraFold_inv {text : List Char} {B : Nat} :
    ∀ (ps : List (List Char)) (st : List (List Char) × List Char),
      (∀ q ∈ ps, q ∈ paragraphsOf text) → ChunkInv text B st →
      ChunkInv text B (ps.foldl (paraStep B) st) := by
  intro ps
  induction ps with
  | nil => intro st _ h; exact h
  | cons q ps' ih =>
    intro st hall h
    exact ih _ (fun x hx => hall x (List.mem_cons_of_mem _ hx))
      (paraStep_inv h (hall q (List.mem_cons_self _ _)))

/-- Claim C3 (amended): every chunk returned by `_split_text_into_chunks`
either has token estimate at most `budget + 1` (the sentence loop joins with
`". "` after testing the un-joined length, so accumulated chunks can exceed
the budget by one token), or is an entire paragraph of the input (a
paragraph adopted as the new `current_chunk` is never re-checked against the
budget), or is a single sentence of a paragraph (emitted whole when it alone
exceeds the budget). -/
theorem c3_amended_thm (text : List Char) (B : Nat) (_hB : 0 < B)
    (c : List Char) (hc : c ∈ splitTextIntoChunks text B) :
    c.length / 4 ≤ B + 1 ∨ c ∈ paragraphsOf text ∨
      ∃ p ∈ paragraphsOf text, c ∈ sentencesOf p := by
  unfold splitTextIntoChunks at hc
  split at hc
  · rename_i hsmall
    rw [List.mem_singleton.mp hc]
    left
    omega
  · have hinv : ChunkInv text B
        ((paragraphsOf text).foldl (paraStep B) ([], [])) :=
      paraFold_inv (paragraphsOf text) ([], []) (fun q hq => hq)
        ⟨fun c hc => absurd hc (List.not_mem_nil c), Or.inl rfl⟩
    obtain ⟨hchunks, hcur⟩ := hinv
    unfold assembleChunks at hc
    split at hc
    · exact hchunks c hc
    · rename_i hne
      rcases List.mem_append.mp hc with hc' | hc'
      · exact hchunks c hc'
      · rw [List.mem_singleton.mp hc']
        exact hcur.resolve_left hne

/-- The chunker counterexample input
`"aaaaa\n\nbb. bb. bb. bb. bb. bb"`. -/
def c3text : List Char :=
  (r"aaaaa").data ++ paragraphSep ++ (r"bb. bb. bb. bb. bb. bb").data

/-- Claim C3 (counterexample): with budget 2, the second chunk is the whole
second paragraph (token estimate 5 > 2) even though it consists of six
sentences — the chunker moves an oversized paragraph into `current_chunk`
without re-checking it, so a chunk may exceed the budget without being a
single sentence. -/
theorem c3_counterexample :
    ¬ (∀ c ∈ splitTextIntoChunks c3text 2,
        c.length / 4 ≤ 2 ∨ (sentencesOf c).length = 1) := by
  decide

/-- Claim C3 (witness): the amended bound instantiated on the
counterexample text, budget 2, at the paragraph-sized chunk. -/
theorem c3_witness :
    ((r"bb. bb. bb. bb. bb. bb").data.length / 4 ≤ 2 + 1 ∨
      (r"bb. bb. bb. bb. bb. bb").data ∈ paragraphsOf c3text ∨
      ∃ p ∈ paragraphsOf c3text, (r"bb. bb. bb. bb. bb. bb").data ∈ sentencesOf p) :=
  c3_amended_thm c3text 2 (by decide) ((r"bb. bb. bb. bb. bb. bb").data) (by decide)

/-! ### Keyword extraction (C6) -/

/-- Invariant of the frequency-count fold: keys are distinct, every entry
counts the occurrences of its key among the processed words, and every
processed word has an entry. -/
def FreqInv (processed : List (List Char)) (acc : List (List Char × Nat)) : Prop :=
  (acc.map Prod.fst).Nodup ∧
    (∀ pr ∈ acc, pr.2 = processed.count pr.1 ∧ pr.1 ∈ processed) ∧
    ∀ w ∈ processed, w ∈ acc.map Prod.fst

theorem bump_inv {processed : List (List Char)} {acc : List (List Char × Nat)}
    {w : List Char} (h : FreqInv processed acc) :
    FreqInv (processed ++ [w]) (bump acc w) := by
  obtain ⟨hnd, hsound, hcomp⟩ := h
  unfold bump
  by_cases hmem : acc.any (fun p => p.1 == w)
  · rw [if_pos hmem]
    have hwkeys : w ∈ acc.map Prod.fst := by
      obtain ⟨p, hp, hpw⟩ := List.any_eq_true.mp hmem
      exact List.mem_map.mpr ⟨p, hp, eq_of_beq hpw⟩
    have hkeys : (acc.map (fun p => if p.1 = w then (p.1, p.2 + 1) else p)).map
        Prod.fst = acc.map Prod.fst := by
      rw [List.map_map]
      refine List.map_congr_left ?_
      intro p _
      by_cases hpw : p.1 = w <;> simp [hpw]
    refine ⟨by rw [hkeys]; exact hnd, ?_, ?_⟩
    · intro pr hpr
      obtain ⟨q, hq, hfq⟩ := List.mem_map.mp hpr
      obtain ⟨hqc, hqm⟩ := hsound q hq
      by_cases hqw : q.1 = w
      · rw [if_pos hqw] at hfq
        rw [← hfq]
        constructor
        · simp only [List.count_append, hqc]
          rw [hqw]
          simp
        · exact List.mem_append_left _ hqm
      · rw [if_neg hqw] at hfq
        rw [← hfq]
        constructor
        · rw [List.count_append, hqc]
          have : List.count q.1 [w] = 0 := by
            simp [List.count_singleton]
            exact fun hh => hqw hh.symm
          omega
        · exact List.mem_append_left _ hqm
    · intro v hv
      rw [hkeys]
      rcases List.mem_append.mp hv with hv' | hv'
      · exact hcomp v hv'
      · rw [List.mem_singleton.mp hv']
        exact hwkeys
  · rw [if_neg hmem]
    have hwnot : w ∉ acc.map Prod.fst := by
      intro hw
      obtain ⟨p, hp, hpw⟩ := List.mem_map.mp hw
      exact hmem (List.any_eq_true.mpr ⟨p, hp, beq_iff_eq.mpr hpw⟩)
    have hwproc : w ∉ processed := fun hw => hwnot (hcomp w hw)
    refine ⟨?_, ?_, ?_⟩
    · rw [List.map_append]
      rw [List.nodup_append]
      refine ⟨hnd, List.nodup_singleton w, ?_⟩
      intro x hx hx'
      rw [List.mem_singleton.mp hx'] at hx
      exact hwnot hx
    · intro pr hpr
      rcases List.mem_append.mp hpr with hpr' | hpr'
      · obtain ⟨hc, hm⟩ := hsound pr hpr'
        have hprw : pr.1 ≠ w := by
          intro he
          exact hwnot (he ▸ List.mem_map.mpr ⟨pr, hpr', rfl⟩)
        constructor
        · rw [List.count_append, hc]
          have : List.count pr.1 [w] = 0 := by
            simp [List.count_singleton]
            exact fun hh => hprw hh.symm
          omega
        · exact List.mem_append_left _ hm
      · rw [List.mem_singleton.mp hpr']
        constructor
        · simp only [List.count_append]
          rw [List.count_eq_zero.mpr hwproc]
          simp
        · exact List.mem_append_right _ (List.mem_singleton.mpr rfl)
    · intro v hv
      rw [List.map_append]
      rcases List.mem_append.mp hv with hv' | hv'
      · exact List.mem_append_left _ (hcomp v hv')
      · rw [List.mem_singleton.mp hv']
        refine List.mem_append_right _ ?_
        simp
theorem freqFold_inv :
    ∀ (l processed : List (List Char)) (acc : List (List Char × Nat)),
      FreqInv processed acc → FreqInv (processed ++ l) (l.foldl bump acc) := by
  intro l
  induction l with
  | nil => intro processed acc h; rw [List.append_nil]; exact h
  | cons w l' ih =>
    intro processed acc h
    have h' := ih (processed ++ [w]) (bump acc w) (bump_inv h)
    rw [List.append_assoc, List.singleton_append] at h'
    exact h'

theorem buildFreq_sound (l : List (List Char)) :
    ∀ pr ∈ buildFreq l, pr.1 ∈ l ∧ pr.2 = l.count pr.1 := by
  intro pr hpr
  have hinv0 : FreqInv [] [] :=
    ⟨List.nodup_nil, fun q hq => absurd hq (List.not_mem_nil q),
      fun v hv => absurd hv (List.not_mem_nil v)⟩
  have h := freqFold_inv l [] [] hinv0
  rw [List.nil_append] at h
  obtain ⟨hc, hm⟩ := h.2.1 pr hpr
  exact ⟨hm, hc⟩

theorem bump_keys (acc : List (List Char × Nat)) (w : List Char) :
    (bump acc w).map Prod.fst =
      if w ∈ acc.map Prod.fst then acc.map Prod.fst
      else acc.map Prod.fst ++ [w] := by
  unfold bump
  by_cases hmem : w ∈ acc.map Prod.fst
  · have hany : acc.any (fun p => p.1 == w) = true := by
      obtain ⟨p, hp, hpf⟩ := List.mem_map.mp hmem
      exact List.any_eq_true.mpr ⟨p, hp, beq_iff_eq.mpr hpf⟩
    rw [if_pos hany, if_pos hmem, List.map_map]
    refine List.map_congr_left ?_
    intro p _
    by_cases hpw : p.1 = w <;> simp [hpw]
  · have hany : acc.any (fun p => p.1 == w) = false := by
      refine Bool.eq_false_iff.mpr ?_
      intro hcontra
      obtain ⟨p, hp, hpw⟩ := List.any_eq_true.mp hcontra
      exact hmem (List.mem_map.mpr ⟨p, hp, eq_of_beq hpw⟩)
    rw [if_neg (by rw [hany]; exact Bool.false_ne_true), if_neg hmem,
      List.map_append]
    rfl

/-- The first-seen scan depends on `seen` only through membership. -/
theorem firstSeenAux_congr_seen :
    ∀ (l s₁ s₂ : List (List Char)), (∀ v, v ∈ s₁ ↔ v ∈ s₂) →
      firstSeenAux s₁ l = firstSeenAux s₂ l := by
  intro l
  induction l with
  | nil => intro s₁ s₂ _; rfl
  | cons w ws ih =>
    intro s₁ s₂ hiff
    unfold firstSeenAux
    by_cases hw : w ∈ s₁
    · rw [if_pos hw, if_pos ((hiff w).mp hw)]
      exact ih s₁ s₂ hiff
    · rw [if_neg hw, if_neg (fun h => hw ((hiff w).mpr h))]
      rw [ih (w :: s₁) (w :: s₂)
        (fun v => by rw [List.mem_cons, List.mem_cons, hiff v])]

theorem firstSeenAux_cons (seen : List (List Char)) (w : List Char)
    (ws : List (List Char)) :
    firstSeenAux seen (w :: ws) =
      if w ∈ seen then firstSeenAux seen ws
      else w :: firstSeenAux (w :: seen) ws := rfl

/-- The keys of the frequency fold are the distinct words in first-seen
order. -/
theorem foldl_bump_keys :
    ∀ (l : List (List Char)) (acc : List (List Char × Nat)),
      (l.foldl bump acc).map Prod.fst =
        acc.map Prod.fst ++ firstSeenAux (acc.map Prod.fst) l := by
  intro l
  induction l with
  | nil => intro acc; simp [firstSeenAux]
  | cons w ws ih =>
    intro acc
    rw [List.foldl_cons, ih (bump acc w), bump_keys, firstSeenAux_cons]
    by_cases hmem : w ∈ acc.map Prod.fst
    · simp only [if_pos hmem]
    · simp only [if_neg hmem]
      have hseeniff : ∀ v : List Char,
          v ∈ acc.map Prod.fst ++ [w] ↔ v ∈ w :: acc.map Prod.fst := by
        intro v
        rw [List.mem_append, List.mem_singleton, List.mem_cons]
        exact Or.comm
      rw [firstSeenAux_congr_seen ws _ _ hseeniff, List.append_assoc,
        List.singleton_append]

theorem buildFreq_keys (l : List (List Char)) :
    (buildFreq l).map Prod.fst = firstSeenAux [] l := by
  have h := foldl_bump_keys l []
  simpa using h

/-- The insertion-ordered counting dict, as a function of the input word
list: the distinct words in first-seen order, each paired with its total
occurrence count. -/
theorem buildFreq_eq (l : List (List Char)) :
    buildFreq l = (firstSeenAux [] l).map (fun w => (w, l.count w)) := by
  rw [← buildFreq_keys l, List.map_map]
  have hpt : ∀ pr ∈ buildFreq l,
      id pr = ((fun w => (w, l.count w)) ∘ Prod.fst) pr := by
    intro pr hpr
    obtain ⟨_, hc⟩ := buildFreq_sound l pr hpr
    show pr = (pr.1, l.count pr.1)
    rw [← hc]
  have h2 := List.map_congr_left hpt
  rw [List.map_id] at h2
  exact h2

/-- On a list sorted by non-increasing count, truncating before or after the
`count > 1` filter is the same: all passing entries precede all failing
ones. -/
theorem filter_take_comm :
    ∀ (l : List (List Char × Nat)),
      List.Pairwise (fun a b => b.2 ≤ a.2) l → ∀ (n : Nat),
      (l.take n).filter (fun p => decide (1 < p.2)) =
        (l.filter (fun p => decide (1 < p.2))).take n := by
  intro l
  induction l with
  | nil => intro _ n; simp
  | cons x xs ih =>
    intro hs n
    have hpw := List.pairwise_cons.mp hs
    cases n with
    | zero => simp
    | succ m =>
      rw [List.take_succ_cons]
      by_cases hx : 1 < x.2
      · rw [List.filter_cons_of_pos (by simpa using hx),
          List.filter_cons_of_pos (by simpa using hx),
          List.take_succ_cons, ih hpw.2 m]
      · have hall : ∀ y ∈ xs, ¬ 1 < y.2 := by
          intro y hy
          have hyx := hpw.1 y hy
          omega
        rw [List.filter_cons_of_neg (by simpa using hx),
          List.filter_cons_of_neg (by simpa using hx)]
        have h1 : xs.filter (fun p => decide (1 < p.2)) = [] :=
          List.filter_eq_nil_iff.mpr (fun y hy => by simpa using hall y hy)
        have h2 : (xs.take m).filter (fun p => decide (1 < p.2)) = [] :=
          List.filter_eq_nil_iff.mpr
            (fun y hy => by simpa using hall y (List.mem_of_mem_take hy))
        rw [h1, h2]
        simp

/-- Keyword extraction as the spec describes it (§4.1 step 5), carrying the
single correction forced by the counterexample — the length bound is
`len(word) > 3`, strictly greater: tokenize the lowercased text into
alphabetic words, drop stop words and words of length ≤ 3, list the
distinct words in first-seen order with their occurrence counts, keep the
words occurring more than once, and return at most the first ten ordered by
non-increasing frequency; the sort is stable over the first-seen-ordered
list, so ties keep first-seen order. -/
def specKeywords (t : List Char) : List (List Char) :=
  (((List.insertionSort (fun a b => b.2 ≤ a.2)
      ((firstSeenAux []
          ((findWords t).filter
            (fun w => decide (w ∉ stopWords) && decide (3 < w.length)))).map
        (fun w => (w,
          ((findWords t).filter
            (fun v => decide (v ∉ stopWords) && decide (3 < v.length))).count w)))).filter
        (fun p => decide (1 < p.2))).take 10).map Prod.fst

/-- Claim C6 (amended): `_extract_keywords` computes exactly the keyword
list the claim describes, except that the frequency filter keeps only words
of length strictly greater than 3 (`len(word) > 3`, so three-letter words
never appear — see the counterexample): lowercase alphabetic words, stop
words and length-≤-3 words removed, counted by frequency, keeping only
words with frequency > 1, at most the top 10 ordered by descending
frequency with ties broken by first-seen order.  Stated as a functional
equality with the spec-side definition `specKeywords`, which also yields
the appearance guarantee: every surviving word among the ten most frequent
appears. -/
theorem c6_amended_thm (t : List Char) : extractKeywords t = specKeywords t := by
  haveI htot : IsTotal (List Char × Nat) (fun a b => b.2 ≤ a.2) :=
    ⟨fun a b => Nat.le_total b.2 a.2⟩
  haveI htrans : IsTrans (List Char × Nat) (fun a b => b.2 ≤ a.2) :=
    ⟨fun _ _ _ hab hbc => Nat.le_trans hbc hab⟩
  have hs : List.Pairwise (fun (a b : List Char × Nat) => b.2 ≤ a.2)
      (List.insertionSort (fun a b => b.2 ≤ a.2)
        ((firstSeenAux [] (filteredWords t)).map
          (fun w => (w, (filteredWords t).count w)))) :=
    List.sorted_insertionSort _ _
  unfold extractKeywords
  rw [buildFreq_eq (filteredWords t), filter_take_comm _ hs 10]
  rfl

/-- Claim C6 (counterexample): `xyz` is a non-stop-word of length exactly 3
occurring twice in `"xyz xyz"`, fewer than ten keywords are returned, yet it
does not appear among the keywords — the filter requires `len(word) > 3`,
not `≥ 3`. -/
theorem c6_counterexample :
    ¬ (((r"xyz").data ∈ findWords ((r"xyz xyz").data) ∧
        (r"xyz").data ∉ stopWords ∧
        2 ≤ (findWords ((r"xyz xyz").data)).count ((r"xyz").data) ∧
        (extractKeywords ((r"xyz xyz").data)).length < 10) →
      (r"xyz").data ∈ extractKeywords ((r"xyz xyz").data)) := by
  decide

/-! ### Error handling (C9) -/

theorem topicsLoop_nil_of_nomatch (allLines : List (List Char)) :
    ∀ (pairs : List (Nat × List Char)) (page nid : Nat),
      (∀ pr ∈ pairs, headingFirstMatch (stripWS pr.2) = none) →
      topicsLoop allLines pairs page nid = [] := by
  intro pairs
  induction pairs with
  | nil => intro page nid _; rfl
  | cons pr rest ih =>
    intro page nid hall
    obtain ⟨i, rawLine⟩ := pr
    have hhd := hall (i, rawLine) (List.mem_cons_self _ _)
    have htl : ∀ pr ∈ rest, headingFirstMatch (stripWS pr.2) = none :=
      fun q hq => hall q (List.mem_cons_of_mem _ hq)
    simp only [topicsLoop]
    split
    · exact ih _ _ htl
    · split
      · exact ih _ _ htl
      · rw [hhd]
        exact ih _ _ htl

/-- Claim C9: the segmenter and the pattern extractor are total functions
into lists (the embedding has no failure path); when no line matches a
heading pattern the segmenter returns the empty list, when no formula
pattern yields a candidate the extractor returns the empty list, and both
return the empty list on empty input. -/
theorem c9_thm (text : List Char)
    (h1 : ∀ l ∈ linesOf text, headingFirstMatch (stripWS l) = none)
    (h2 : formulaCandidates text = []) :
    identifyStructuralTopics text = [] ∧ extractFormulasByPattern text = [] ∧
      identifyStructuralTopics [] = [] ∧ extractFormulasByPattern [] = [] := by
  refine ⟨?_, ?_, by decide, by decide⟩
  · have hraw : structuralCandidates text = [] := by
      refine topicsLoop_nil_of_nomatch _ _ 1 1 ?_
      intro pr hpr
      refine h1 pr.2 ?_
      have := List.mem_enum_iff_getElem?.mp hpr
      exact List.getElem?_mem this
    rw [identifyStructuralTopics, hraw]
    rfl
  · rw [extractFormulasByPattern, h2]
    rfl

/-- Claim C9 (witness): instantiated at the empty document. -/
theorem c9_witness :
    identifyStructuralTopics [] = [] ∧ extractFormulasByPattern [] = [] := by
  have h := c9_thm [] (by decide) (by decide)
  exact ⟨h.1, h.2.1⟩

/-- Claim C8 (counterexample): `chunk_text("A. B. C.", 1)` does not return
three chunks: the sentence loop tests `len(current + sentence) // 4` but
then joins with a two-character `". "` separator, so all three sentences
re-accumulate into a single chunk. -/
theorem c8_counterexample : ¬ (splitTextIntoChunks c8text 1).length = 3 := by
  decide

/-- Claim C8 (amended): `chunk_text("A. B. C.", 1)` returns exactly one
chunk, the whole (non-empty) input text, whose token estimate 2 exceeds the
budget 1. -/
theorem c8_amended_thm :
    splitTextIntoChunks c8text 1 = [c8text] ∧ c8text ≠ [] := by
  decide

end NotesAgent
